import Mathlib

/-!
Verification of the neo-buffer copy algorithms.

The C++ sources model buffers as non-owning views over contiguous bytes.  Here a
view is modelled by the list of bytes it denotes, and a buffer sequence by a
list of such lists; distinct views are assumed to denote disjoint storage, as
required by the design (sequences must be non-aliasing for the duration of a
call).  Mutation of the destination becomes explicit state passing: each copy
operation returns the count of bytes copied together with the new contents of
the destination.  The pointer-level facts about `neo::detail::buffer_base`
(slicing and splitting) are modelled separately with addresses as naturals.
-/

namespace NeoBuffer

/-- Byte-wise copy loop of the single-view `buffer_copy`: overwrite the first
`r` bytes of `dest` with the first `r` bytes of `src`, keeping the rest of
`dest`.  Mirrors the C++ loop
`for (auto r = n_to_copy; r; --r, ++in, ++out) { *out = *in; }`. -/
def copyBytes : Nat → List Nat → List Nat → List Nat
  | 0, _, dest => dest
  | _ + 1, _, [] => []
  | _ + 1, [], dest => dest
  | r + 1, b :: src, _ :: dest => b :: copyBytes r src dest

/-- Model of the single-view overload
`buffer_copy(mutable_buffer dest, const_buffer src, std::size_t max_copy)`.
The count `n_to_copy` is the same expression as in the source:
`(std::min)(src.size(), (std::min)(dest.size(), max_copy))`.  The result is the
returned count paired with the new contents of the destination view. -/
def buffer_copy (dest src : List Nat) (max_copy : Nat) : Nat × List Nat :=
  let n_to_copy := min src.length (min dest.length max_copy)
  (n_to_copy, copyBytes n_to_copy src dest)

/-- Fuel-indexed model of the loop of the sequence overload
`buffer_copy(const MutableSeq& dest, const ConstSeq& src, std::size_t max_copy)`.
The iterators are modelled by the still unconsumed tails of the two sequences;
`destOff` and `srcOff` are the intra-buffer offsets, `remaining` the quota
`remaining_to_copy`.  The result is `none` if the fuel runs out before the loop
condition fails, otherwise the bytes copied from this state on, paired with the
final contents of the destination tail.  The fuel
`dest.length + src.length + remaining` is proved sufficient below. -/
def copyLoop (fuel : Nat) (dest : List (List Nat)) (destOff : Nat)
    (src : List (List Nat)) (srcOff : Nat) (remaining : Nat) :
    Option (Nat × List (List Nat)) :=
  match fuel, dest, src, remaining with
  | _, [], _, _ => some (0, [])
  | _, d :: drest, [], _ => some (0, d :: drest)
  | _, d :: drest, _, 0 => some (0, d :: drest)
  | 0, _ :: _, _ :: _, _ + 1 => none
  | fuel + 1, d :: drest, s :: srest, r + 1 =>
    -- the source buffer, with the offset applied: `*src_iter + src_offset`
    let src_buf := List.drop srcOff s
    -- the dest buffer, with the offset applied: `*dest_iter + dest_offset`
    let dest_buf := List.drop destOff d
    -- `buffer_copy(dest_buf, src_buf, remaining_to_copy)`
    let step := buffer_copy dest_buf src_buf (r + 1)
    let n_copied := step.1
    -- the current destination buffer after the write
    let d2 := List.take destOff d ++ step.2
    -- `if (src_buf.size() == n_copied) { ++src_iter; src_offset = 0; }`
    let src2 := if src_buf.length = n_copied then srest else s :: srest
    let srcOff2 := if src_buf.length = n_copied then 0 else srcOff + n_copied
    -- `if (dest_buf.size() == n_copied) { ++dest_iter; dest_offset = 0; }`
    if dest_buf.length = n_copied then
      match copyLoop fuel drest 0 src2 srcOff2 (r + 1 - n_copied) with
      | none => none
      | some (t, dtail) => some (n_copied + t, d2 :: dtail)
    else
      match copyLoop fuel (d2 :: drest) (destOff + n_copied) src2 srcOff2 (r + 1 - n_copied) with
      | none => none
      | some (t, dtail) => some (n_copied + t, dtail)

/-- Model of the sequence overload `buffer_copy(dest, src, max_copy)`: run the
loop from the initial state (both offsets zero, full quota).  The fuel
`dest.length + src.length + max_copy` is proved sufficient below, so the
default of `getD` is never taken. -/
def buffer_copy_seq (dest src : List (List Nat)) (max_copy : Nat) :
    Nat × List (List Nat) :=
  (copyLoop (dest.length + src.length + max_copy) dest 0 src 0 max_copy).getD (0, dest)

/-- Modelled from the spec: the size-summation facility `buffer_size` lives in
`neo/buffer_algorithm/size.hpp`, which is not among the provided sources.  The
design describes it as `total_size(sequence) -> unsigned, defined as the sum of
size() over all views in the sequence`. -/
def buffer_size (seq : List (List Nat)) : Nat := (seq.map List.length).sum

/-- Model of the exhaustive overload `buffer_copy(dest, src)`:
`min_size = (src_size > dest_size) ? dest_size : src_size`, then delegate to
the bounded sequence overload. -/
def buffer_copy_full (dest src : List (List Nat)) : Nat × List (List Nat) :=
  let src_size := buffer_size src
  let dest_size := buffer_size dest
  let min_size := if dest_size < src_size then dest_size else src_size
  buffer_copy_seq dest src min_size

/-- State of the sequence copy loop at the top of an iteration: the still
unconsumed tails of the two sequences (the iterators), the two intra-buffer
offsets, and the remaining quota. -/
structure CopyState where
  dest : List (List Nat)
  destOff : Nat
  src : List (List Nat)
  srcOff : Nat
  remaining : Nat
deriving DecidableEq, Repr

/-- Trace of the sequence copy loop: the state at the top of every iteration
whose condition check passed, in order.  The state transitions are exactly
those of `copyLoop`. -/
def copyStates (fuel : Nat) (dest : List (List Nat)) (destOff : Nat)
    (src : List (List Nat)) (srcOff : Nat) (remaining : Nat) : List CopyState :=
  match fuel, dest, src, remaining with
  | _, [], _, _ => []
  | _, _ :: _, [], _ => []
  | _, _ :: _, _, 0 => []
  | 0, _ :: _, _ :: _, _ + 1 => []
  | fuel + 1, d :: drest, s :: srest, r + 1 =>
    ⟨d :: drest, destOff, s :: srest, srcOff, r + 1⟩ ::
    (let src_buf := List.drop srcOff s
     let dest_buf := List.drop destOff d
     let step := buffer_copy dest_buf src_buf (r + 1)
     let n_copied := step.1
     let d2 := List.take destOff d ++ step.2
     let src2 := if src_buf.length = n_copied then srest else s :: srest
     let srcOff2 := if src_buf.length = n_copied then 0 else srcOff + n_copied
     if dest_buf.length = n_copied then
       copyStates fuel drest 0 src2 srcOff2 (r + 1 - n_copied)
     else
       copyStates fuel (d2 :: drest) (destOff + n_copied) src2 srcOff2 (r + 1 - n_copied))

/-- Length of the buffer the iterator currently points to (0 at the end of the
sequence, where no buffer is current). -/
def headLen : List (List Nat) → Nat
  | [] => 0
  | b :: _ => b.length

/-- Model of `neo::detail::buffer_base`: a non-owning view, holding a pointer
(modelled as a numeric address) and a size in bytes. -/
structure buffer_base where
  data : Nat
  size : Nat
deriving DecidableEq, Repr

namespace buffer_base

/-- Model of `remove_prefix(n)`: advance the data pointer by `n` and shrink the
size by `n`.  The debug assertion requires `n <= size()`. -/
def remove_prefix (b : buffer_base) (n : Nat) : buffer_base :=
  ⟨b.data + n, b.size - n⟩

/-- Model of `operator+(buffer_base buf, size_type s)`, which copies the view
and applies `operator+=`, itself defined as `remove_prefix`. -/
def plus (b : buffer_base) (s : Nat) : buffer_base :=
  remove_prefix b s

/-- Model of `first(s)`: a view of the first `s` bytes, same data pointer.  The
debug assertion requires `s <= size()`. -/
def first (b : buffer_base) (s : Nat) : buffer_base :=
  ⟨b.data, s⟩

/-- Model of `last(s)`: `*this + (size() - s)`.  The debug assertion requires
`s <= size()`. -/
def last (b : buffer_base) (s : Nat) : buffer_base :=
  plus b (b.size - s)

/-- Model of `split(part)`: the pair `(first(part), last(size() - part))`.  The
debug assertion requires `part <= size()`. -/
def split (b : buffer_base) (part : Nat) : buffer_base × buffer_base :=
  (first b part, last b (b.size - part))

end buffer_base

end NeoBuffer
namespace NeoBuffer

theorem copyBytes_eq (n : Nat) (src dest : List Nat) (hs : n ≤ src.length)
    (hd : n ≤ dest.length) : copyBytes n src dest = src.take n ++ dest.drop n := by
  induction n generalizing src dest with
  | zero => simp [copyBytes]
  | succ n ih =>
    cases src with
    | nil => simp at hs
    | cons b src =>
      cases dest with
      | nil => simp at hd
      | cons c dest =>
        simp only [copyBytes, List.take_succ_cons, List.drop_succ_cons, List.cons_append]
        rw [ih src dest (by simpa using hs) (by simpa using hd)]

theorem buffer_copy_fst (dest src : List Nat) (m : Nat) :
    (buffer_copy dest src m).1 = min src.length (min dest.length m) := rfl


theorem copyLoop_succ (fuel : Nat) (d : List Nat) (drest : List (List Nat)) (destOff : Nat)
    (s : List Nat) (srest : List (List Nat)) (srcOff r : Nat) :
    copyLoop (fuel + 1) (d :: drest) destOff (s :: srest) srcOff (r + 1) =
      (if (List.drop destOff d).length
          = (buffer_copy (List.drop destOff d) (List.drop srcOff s) (r + 1)).1 then
         match copyLoop fuel drest 0
             (if (List.drop srcOff s).length
                 = (buffer_copy (List.drop destOff d) (List.drop srcOff s) (r + 1)).1
              then srest else s :: srest)
             (if (List.drop srcOff s).length
                 = (buffer_copy (List.drop destOff d) (List.drop srcOff s) (r + 1)).1
              then 0
              else srcOff + (buffer_copy (List.drop destOff d) (List.drop srcOff s) (r + 1)).1)
             (r + 1 - (buffer_copy (List.drop destOff d) (List.drop srcOff s) (r + 1)).1) with
         | none => none
         | some (t, dtail) =>
             some ((buffer_copy (List.drop destOff d) (List.drop srcOff s) (r + 1)).1 + t,
               (List.take destOff d
                 ++ (buffer_copy (List.drop destOff d) (List.drop srcOff s) (r + 1)).2) :: dtail)
       else
         match copyLoop fuel
             ((List.take destOff d
                ++ (buffer_copy (List.drop destOff d) (List.drop srcOff s) (r + 1)).2) :: drest)
             (destOff + (buffer_copy (List.drop destOff d) (List.drop srcOff s) (r + 1)).1)
             (if (List.drop srcOff s).length
                 = (buffer_copy (List.drop destOff d) (List.drop srcOff s) (r + 1)).1
              then srest else s :: srest)
             (if (List.drop srcOff s).length
                 = (buffer_copy (List.drop destOff d) (List.drop srcOff s) (r + 1)).1
              then 0
              else srcOff + (buffer_copy (List.drop destOff d) (List.drop srcOff s) (r + 1)).1)
             (r + 1 - (buffer_copy (List.drop destOff d) (List.drop srcOff s) (r + 1)).1) with
         | none => none
         | some (t, dtail) =>
             some ((buffer_copy (List.drop destOff d) (List.drop srcOff s) (r + 1)).1 + t, dtail)) := by
  rfl


theorem copyLoop_step_aa {fuel destOff srcOff r : Nat} {d s : List Nat}
    {drest srest : List (List Nat)} {n t : Nat} {d2 : List Nat} {dtail : List (List Nat)}
    (hn : n = (buffer_copy (List.drop destOff d) (List.drop srcOff s) (r + 1)).1)
    (hd2 : d2 = List.take destOff d
      ++ (buffer_copy (List.drop destOff d) (List.drop srcOff s) (r + 1)).2)
    (hads : (List.drop srcOff s).length = n)
    (hadd : (List.drop destOff d).length = n)
    (heq : copyLoop fuel drest 0 srest 0 (r + 1 - n) = some (t, dtail)) :
    copyLoop (fuel + 1) (d :: drest) destOff (s :: srest) srcOff (r + 1)
      = some (n + t, d2 :: dtail) := by
  subst hn; subst hd2
  rw [copyLoop_succ]
  simp only [if_pos hads, if_pos hadd, heq]

theorem copyLoop_step_an {fuel destOff srcOff r : Nat} {d s : List Nat}
    {drest srest : List (List Nat)} {n t : Nat} {d2 : List Nat} {dtail : List (List Nat)}
    (hn : n = (buffer_copy (List.drop destOff d) (List.drop srcOff s) (r + 1)).1)
    (hd2 : d2 = List.take destOff d
      ++ (buffer_copy (List.drop destOff d) (List.drop srcOff s) (r + 1)).2)
    (hads : (List.drop srcOff s).length = n)
    (hadd : ¬ (List.drop destOff d).length = n)
    (heq : copyLoop fuel (d2 :: drest) (destOff + n) srest 0 (r + 1 - n)
      = some (t, dtail)) :
    copyLoop (fuel + 1) (d :: drest) destOff (s :: srest) srcOff (r + 1)
      = some (n + t, dtail) := by
  subst hn; subst hd2
  rw [copyLoop_succ]
  simp only [if_pos hads, if_neg hadd, heq]

theorem copyLoop_step_na {fuel destOff srcOff r : Nat} {d s : List Nat}
    {drest srest : List (List Nat)} {n t : Nat} {d2 : List Nat} {dtail : List (List Nat)}
    (hn : n = (buffer_copy (List.drop destOff d) (List.drop srcOff s) (r + 1)).1)
    (hd2 : d2 = List.take destOff d
      ++ (buffer_copy (List.drop destOff d) (List.drop srcOff s) (r + 1)).2)
    (hads : ¬ (List.drop srcOff s).length = n)
    (hadd : (List.drop destOff d).length = n)
    (heq : copyLoop fuel drest 0 (s :: srest) (srcOff + n) (r + 1 - n)
      = some (t, dtail)) :
    copyLoop (fuel + 1) (d :: drest) destOff (s :: srest) srcOff (r + 1)
      = some (n + t, d2 :: dtail) := by
  subst hn; subst hd2
  rw [copyLoop_succ]
  simp only [if_pos hadd, if_neg hads, heq]

theorem copyLoop_step_nn {fuel destOff srcOff r : Nat} {d s : List Nat}
    {drest srest : List (List Nat)} {n t : Nat} {d2 : List Nat} {dtail : List (List Nat)}
    (hn : n = (buffer_copy (List.drop destOff d) (List.drop srcOff s) (r + 1)).1)
    (hd2 : d2 = List.take destOff d
      ++ (buffer_copy (List.drop destOff d) (List.drop srcOff s) (r + 1)).2)
    (hads : ¬ (List.drop srcOff s).length = n)
    (hadd : ¬ (List.drop destOff d).length = n)
    (heq : copyLoop fuel (d2 :: drest) (destOff + n) (s :: srest) (srcOff + n) (r + 1 - n)
      = some (t, dtail)) :
    copyLoop (fuel + 1) (d :: drest) destOff (s :: srest) srcOff (r + 1)
      = some (n + t, dtail) := by
  subst hn; subst hd2
  rw [copyLoop_succ]
  simp only [if_neg hads, if_neg hadd, heq]


theorem copyCount_aa {sl so dl dofs n r t FD FS : Nat}
    (hso : so ≤ sl) (hdo : dofs ≤ dl)
    (hads2 : sl - so = n) (hadd2 : dl - dofs = n) (hn_r : n ≤ r + 1)
    (ht : t = FD ⊓ (FS ⊓ (r + 1 - n))) :
    n + t = (dl + FD - dofs) ⊓ ((sl + FS - so) ⊓ (r + 1)) := by
  omega

theorem copyCount_an {sl so dl dofs n r t FD FS : Nat}
    (hso : so ≤ sl) (hdo : dofs ≤ dl)
    (hads2 : sl - so = n) (hn_db : n ≤ dl - dofs) (hn_r : n ≤ r + 1)
    (ht : t = (dl + FD - (dofs + n)) ⊓ (FS ⊓ (r + 1 - n))) :
    n + t = (dl + FD - dofs) ⊓ ((sl + FS - so) ⊓ (r + 1)) := by
  omega

theorem copyCount_na {sl so dl dofs n r t FD FS : Nat}
    (hso : so ≤ sl) (hdo : dofs ≤ dl)
    (hadd2 : dl - dofs = n) (hn_sb : n ≤ sl - so) (hn_r : n ≤ r + 1)
    (ht : t = FD ⊓ ((sl + FS - (so + n)) ⊓ (r + 1 - n))) :
    n + t = (dl + FD - dofs) ⊓ ((sl + FS - so) ⊓ (r + 1)) := by
  omega

theorem copyCount_nn {sl so dl dofs n r t FD FS : Nat}
    (hso : so ≤ sl) (hdo : dofs ≤ dl)
    (hn_sb : n ≤ sl - so) (hn_db : n ≤ dl - dofs) (hn_r : n ≤ r + 1)
    (ht : t = (dl + FD - (dofs + n)) ⊓ ((sl + FS - (so + n)) ⊓ (r + 1 - n))) :
    n + t = (dl + FD - dofs) ⊓ ((sl + FS - so) ⊓ (r + 1)) := by
  omega

set_option maxHeartbeats 400000 in
theorem copyLoop_spec (fuel : Nat) :
    ∀ (dest : List (List Nat)) (destOff : Nat) (src : List (List Nat)) (srcOff r : Nat),
    dest.length + src.length + r ≤ fuel →
    destOff ≤ headLen dest → srcOff ≤ headLen src →
    ∃ t dtail,
      copyLoop fuel dest destOff src srcOff r = some (t, dtail) ∧
      t = min (dest.flatten.length - destOff) (min (src.flatten.length - srcOff) r) ∧
      dtail.map List.length = dest.map List.length ∧
      dtail.flatten = dest.flatten.take destOff ++
        (src.flatten.drop srcOff).take t ++ dest.flatten.drop (destOff + t) := by
  induction fuel with
  | zero =>
    intro dest destOff src srcOff r hfuel hdo hso
    cases dest with
    | nil => exact ⟨0, [], rfl, by simp, rfl, by simp⟩
    | cons d drest => simp [List.length_cons] at hfuel
  | succ fuel IH =>
    intro dest destOff src srcOff r hfuel hdo hso
    cases dest with
    | nil => exact ⟨0, [], rfl, by simp, rfl, by simp⟩
    | cons d drest =>
      cases src with
      | nil =>
        have hso0 : srcOff = 0 := Nat.le_zero.mp hso
        cases r with
        | zero => exact ⟨0, d :: drest, rfl, by simp [hso0], rfl, by simp⟩
        | succ r => exact ⟨0, d :: drest, rfl, by simp [hso0], rfl, by simp⟩
      | cons s srest =>
        cases r with
        | zero => exact ⟨0, d :: drest, rfl, by simp, rfl, by simp⟩
        | succ r =>
          simp only [headLen] at hdo hso
          simp only [List.length_cons] at hfuel
          have hsbl : (List.drop srcOff s).length = s.length - srcOff := by simp
          have hdbl : (List.drop destOff d).length = d.length - destOff := by simp
          obtain ⟨n, hn⟩ : ∃ k,
              k = (buffer_copy (List.drop destOff d) (List.drop srcOff s) (r + 1)).1 :=
            ⟨_, rfl⟩
          have hnval : n = min (s.length - srcOff) (min (d.length - destOff) (r + 1)) := by
            rw [hn, buffer_copy_fst, hsbl, hdbl]
          have hn_sb : n ≤ s.length - srcOff := by omega
          have hn_db : n ≤ d.length - destOff := by omega
          have hn_r : n ≤ r + 1 := by omega
          have hlen_sb : n ≤ (List.drop srcOff s).length := by rw [hsbl]; exact hn_sb
          have hlen_db : n ≤ (List.drop destOff d).length := by rw [hdbl]; exact hn_db
          have hB2 : (buffer_copy (List.drop destOff d) (List.drop srcOff s) (r + 1)).2
              = (List.drop srcOff s).take n ++ (List.drop destOff d).drop n := by
            have h0 : (buffer_copy (List.drop destOff d) (List.drop srcOff s) (r + 1)).2
                = copyBytes (buffer_copy (List.drop destOff d)
                    (List.drop srcOff s) (r + 1)).1
                  (List.drop srcOff s) (List.drop destOff d) := rfl
            rw [h0, ← hn]
            exact copyBytes_eq n _ _ hlen_sb hlen_db
          obtain ⟨d2, hd2def⟩ : ∃ x, x = List.take destOff d ++
              ((List.drop srcOff s).take n ++ (List.drop destOff d).drop n) :=
            ⟨_, rfl⟩
          have hd2bc : d2 = List.take destOff d
              ++ (buffer_copy (List.drop destOff d) (List.drop srcOff s) (r + 1)).2 := by
            rw [hd2def, hB2]
          have hPlen : (List.take destOff d).length = destOff := by
            simp [List.length_take]; omega
          have hQlen : ((List.drop srcOff s).take n).length = n := by
            simp [List.length_take, List.length_drop]; omega
          have hd2len : d2.length = d.length := by
            rw [hd2def]
            simp [List.length_append, List.length_take, List.length_drop]
            omega
          have hd2split : ∀ rest : List Nat,
              d2 ++ rest = (List.take destOff d ++ (List.drop srcOff s).take n)
                ++ ((List.drop destOff d).drop n ++ rest) := by
            intro rest; rw [hd2def]; simp [List.append_assoc]
          have hPQlen : (List.take destOff d ++ (List.drop srcOff s).take n).length
              = destOff + n := by
            rw [List.length_append, hPlen, hQlen]
          have hXtake : (d2 ++ drest.flatten).take (destOff + n)
              = List.take destOff d ++ (List.drop srcOff s).take n := by
            rw [hd2split, List.take_left' hPQlen]
          have hXdrop : ∀ t : Nat, (d2 ++ drest.flatten).drop (destOff + n + t)
              = ((List.drop destOff d).drop n ++ drest.flatten).drop t := by
            intro t
            rw [← List.drop_drop, hd2split, List.drop_left' hPQlen]
          have h1 : (d ++ drest.flatten).take destOff = List.take destOff d :=
            List.take_append_of_le_length hdo
          have h2 : (s ++ srest.flatten).drop srcOff = List.drop srcOff s ++ srest.flatten :=
            List.drop_append_of_le_length hso
          have hmid : ∀ t : Nat, (List.drop srcOff s ++ srest.flatten).take (n + t)
              = (List.drop srcOff s).take n
                ++ ((List.drop srcOff s).drop n ++ srest.flatten).take t := by
            intro t
            rw [List.take_add, List.take_append_of_le_length hlen_sb,
              List.drop_append_of_le_length hlen_sb]
          have htail : ∀ t : Nat, (d ++ drest.flatten).drop (destOff + (n + t))
              = ((List.drop destOff d).drop n ++ drest.flatten).drop t := by
            intro t
            rw [show destOff + (n + t) = destOff + n + t by omega, ← List.drop_drop,
              List.drop_append_of_le_length (show destOff + n ≤ d.length by omega),
              ← List.drop_drop]
          have hsrcdrop : (s ++ srest.flatten).drop (srcOff + n)
              = (List.drop srcOff s).drop n ++ srest.flatten := by
            rw [List.drop_append_of_le_length (show srcOff + n ≤ s.length by omega),
              ← List.drop_drop]
          by_cases hads : (List.drop srcOff s).length = n
          · have hads2 : s.length - srcOff = n := by rw [← hsbl]; exact hads
            have hsbdrop : (List.drop srcOff s).drop n = [] :=
              List.drop_of_length_le (le_of_eq hads)
            by_cases hadd : (List.drop destOff d).length = n
            · have hadd2 : d.length - destOff = n := by rw [← hdbl]; exact hadd
              have hdbdrop : (List.drop destOff d).drop n = [] :=
                List.drop_of_length_le (le_of_eq hadd)
              obtain ⟨t, dtail, heq, ht, hmap, hflat⟩ :=
                IH drest 0 srest 0 (r + 1 - n) (by omega) (Nat.zero_le _) (Nat.zero_le _)
              refine ⟨n + t, d2 :: dtail,
                copyLoop_step_aa hn hd2bc hads hadd heq, ?_, ?_, ?_⟩
              · simp only [List.flatten_cons, List.length_append, Nat.sub_zero] at ht ⊢
                exact copyCount_aa hso hdo hads2 hadd2 hn_r ht
              · simp only [List.map_cons, hd2len, hmap]
              · simp only [List.take_zero, List.drop_zero, Nat.zero_add, List.nil_append]
                  at hflat
                simp only [List.flatten_cons]
                rw [hflat, h1, h2, hmid t, htail t, hsbdrop, hdbdrop]
                simp [hd2def, hsbdrop, hdbdrop, List.append_assoc]
            · have hadd2 : d.length - destOff ≠ n := by rw [← hdbl]; exact hadd
              obtain ⟨t, dtail, heq, ht, hmap, hflat⟩ :=
                IH (d2 :: drest) (destOff + n) srest 0 (r + 1 - n)
                  (by simp only [List.length_cons]; omega)
                  (by simp only [headLen]; rw [hd2len]; omega)
                  (Nat.zero_le _)
              refine ⟨n + t, dtail,
                copyLoop_step_an hn hd2bc hads hadd heq, ?_, ?_, ?_⟩
              · rw [List.flatten_cons, List.length_append, hd2len] at ht
                simp only [List.flatten_cons, List.length_append, Nat.sub_zero] at ht ⊢
                exact copyCount_an hso hdo hads2 hn_db hn_r ht
              · rw [hmap]
                simp only [List.map_cons, hd2len]
              · simp only [List.flatten_cons, List.drop_zero, Nat.sub_zero] at hflat
                rw [hXtake, hXdrop t] at hflat
                simp only [List.flatten_cons]
                rw [hflat, h1, h2, hmid t, htail t, hsbdrop]
                simp [hd2def, hsbdrop, List.append_assoc]
          · have hads2 : s.length - srcOff ≠ n := by rw [← hsbl]; exact hads
            by_cases hadd : (List.drop destOff d).length = n
            · have hadd2 : d.length - destOff = n := by rw [← hdbl]; exact hadd
              have hdbdrop : (List.drop destOff d).drop n = [] :=
                List.drop_of_length_le (le_of_eq hadd)
              obtain ⟨t, dtail, heq, ht, hmap, hflat⟩ :=
                IH drest 0 (s :: srest) (srcOff + n) (r + 1 - n)
                  (by simp only [List.length_cons]; omega)
                  (Nat.zero_le _)
                  (by simp only [headLen]; omega)
              refine ⟨n + t, d2 :: dtail,
                copyLoop_step_na hn hd2bc hads hadd heq, ?_, ?_, ?_⟩
              · simp only [List.flatten_cons, List.length_append, Nat.sub_zero] at ht ⊢
                exact copyCount_na hso hdo hadd2 hn_sb hn_r ht
              · simp only [List.map_cons, hd2len, hmap]
              · simp only [List.take_zero, List.drop_zero, Nat.zero_add, List.nil_append,
                  List.flatten_cons] at hflat
                rw [hsrcdrop] at hflat
                simp only [List.flatten_cons]
                rw [hflat, h1, h2, hmid t, htail t, hdbdrop]
                simp [hd2def, hdbdrop, List.append_assoc]
            · have hadd2 : d.length - destOff ≠ n := by rw [← hdbl]; exact hadd
              obtain ⟨t, dtail, heq, ht, hmap, hflat⟩ :=
                IH (d2 :: drest) (destOff + n) (s :: srest) (srcOff + n) (r + 1 - n)
                  (by simp only [List.length_cons]; omega)
                  (by simp only [headLen]; rw [hd2len]; omega)
                  (by simp only [headLen]; omega)
              refine ⟨n + t, dtail,
                copyLoop_step_nn hn hd2bc hads hadd heq, ?_, ?_, ?_⟩
              · rw [List.flatten_cons, List.length_append, hd2len] at ht
                simp only [List.flatten_cons, List.length_append, Nat.sub_zero] at ht ⊢
                exact copyCount_nn hso hdo hn_sb hn_db hn_r ht
              · rw [hmap]
                simp only [List.map_cons, hd2len]
              · simp only [List.flatten_cons] at hflat
                rw [hXtake, hXdrop t, hsrcdrop] at hflat
                simp only [List.flatten_cons]
                rw [hflat, h1, h2, hmid t, htail t]
                simp [hd2def, List.append_assoc]

end NeoBuffer
namespace NeoBuffer

theorem copyStates_succ (fuel : Nat) (d : List Nat) (drest : List (List Nat)) (destOff : Nat)
    (s : List Nat) (srest : List (List Nat)) (srcOff r : Nat) :
    copyStates (fuel + 1) (d :: drest) destOff (s :: srest) srcOff (r + 1) =
      ⟨d :: drest, destOff, s :: srest, srcOff, r + 1⟩ ::
      (if (List.drop destOff d).length
          = (buffer_copy (List.drop destOff d) (List.drop srcOff s) (r + 1)).1 then
         copyStates fuel drest 0
           (if (List.drop srcOff s).length
               = (buffer_copy (List.drop destOff d) (List.drop srcOff s) (r + 1)).1
            then srest else s :: srest)
           (if (List.drop srcOff s).length
               = (buffer_copy (List.drop destOff d) (List.drop srcOff s) (r + 1)).1
            then 0
            else srcOff + (buffer_copy (List.drop destOff d) (List.drop srcOff s) (r + 1)).1)
           (r + 1 - (buffer_copy (List.drop destOff d) (List.drop srcOff s) (r + 1)).1)
       else
         copyStates fuel
           ((List.take destOff d
              ++ (buffer_copy (List.drop destOff d) (List.drop srcOff s) (r + 1)).2) :: drest)
           (destOff + (buffer_copy (List.drop destOff d) (List.drop srcOff s) (r + 1)).1)
           (if (List.drop srcOff s).length
               = (buffer_copy (List.drop destOff d) (List.drop srcOff s) (r + 1)).1
            then srest else s :: srest)
           (if (List.drop srcOff s).length
               = (buffer_copy (List.drop destOff d) (List.drop srcOff s) (r + 1)).1
            then 0
            else srcOff + (buffer_copy (List.drop destOff d) (List.drop srcOff s) (r + 1)).1)
           (r + 1 - (buffer_copy (List.drop destOff d) (List.drop srcOff s) (r + 1)).1)) := by
  rfl

theorem copyStates_inv (fuel : Nat) :
    ∀ (dest : List (List Nat)) (destOff : Nat) (src : List (List Nat)) (srcOff r : Nat),
    (destOff = 0 ∨ destOff < headLen dest) →
    (srcOff = 0 ∨ srcOff < headLen src) →
    ∀ st ∈ copyStates fuel dest destOff src srcOff r,
      (st.destOff = 0 ∨ st.destOff < headLen st.dest) ∧
      (st.srcOff = 0 ∨ st.srcOff < headLen st.src) := by
  induction fuel with
  | zero =>
    intro dest destOff src srcOff r _ _ st hst
    cases dest with
    | nil => simp [copyStates] at hst
    | cons d drest =>
      cases src with
      | nil => simp [copyStates] at hst
      | cons s srest =>
        cases r with
        | zero => simp [copyStates] at hst
        | succ r => simp [copyStates] at hst
  | succ fuel IH =>
    intro dest destOff src srcOff r hdo hso st hst
    cases dest with
    | nil => simp [copyStates] at hst
    | cons d drest =>
      cases src with
      | nil => simp [copyStates] at hst
      | cons s srest =>
        cases r with
        | zero => simp [copyStates] at hst
        | succ r =>
          rw [copyStates_succ] at hst
          simp only [headLen] at hdo hso
          rcases List.mem_cons.mp hst with heq | hmem
          · subst heq
            exact ⟨hdo, hso⟩
          · obtain ⟨n, hn⟩ : ∃ k,
                k = (buffer_copy (List.drop destOff d) (List.drop srcOff s) (r + 1)).1 :=
              ⟨_, rfl⟩
            rw [← hn] at hmem
            have hsbl : (List.drop srcOff s).length = s.length - srcOff := by simp
            have hdbl : (List.drop destOff d).length = d.length - destOff := by simp
            have hnval : n = min (s.length - srcOff) (min (d.length - destOff) (r + 1)) := by
              rw [hn, buffer_copy_fst, hsbl, hdbl]
            have hn_sb : n ≤ s.length - srcOff := by omega
            have hn_db : n ≤ d.length - destOff := by omega
            have hdo2 : destOff ≤ d.length := by omega
            have hso2 : srcOff ≤ s.length := by omega
            have hlen_sb : n ≤ (List.drop srcOff s).length := by rw [hsbl]; exact hn_sb
            have hlen_db : n ≤ (List.drop destOff d).length := by rw [hdbl]; exact hn_db
            have hB2 : (buffer_copy (List.drop destOff d) (List.drop srcOff s) (r + 1)).2
                = (List.drop srcOff s).take n ++ (List.drop destOff d).drop n := by
              have h0 : (buffer_copy (List.drop destOff d) (List.drop srcOff s) (r + 1)).2
                  = copyBytes (buffer_copy (List.drop destOff d)
                      (List.drop srcOff s) (r + 1)).1
                    (List.drop srcOff s) (List.drop destOff d) := rfl
              rw [h0, ← hn]
              exact copyBytes_eq n _ _ hlen_sb hlen_db
            rw [hB2] at hmem
            have hd2len : (List.take destOff d
                ++ ((List.drop srcOff s).take n ++ (List.drop destOff d).drop n)).length
                = d.length := by
              simp [List.length_append, List.length_take, List.length_drop]
              omega
            by_cases hadd : (List.drop destOff d).length = n
            · rw [if_pos hadd] at hmem
              by_cases hads : (List.drop srcOff s).length = n
              · simp only [if_pos hads] at hmem
                exact IH drest 0 srest 0 (r + 1 - n) (Or.inl rfl) (Or.inl rfl) st hmem
              · have hads2 : s.length - srcOff ≠ n := by rw [← hsbl]; exact hads
                simp only [if_neg hads] at hmem
                refine IH drest 0 (s :: srest) (srcOff + n) (r + 1 - n)
                  (Or.inl rfl) ?_ st hmem
                right
                simp only [headLen]
                omega
            · have hadd2 : d.length - destOff ≠ n := by rw [← hdbl]; exact hadd
              rw [if_neg hadd] at hmem
              by_cases hads : (List.drop srcOff s).length = n
              · simp only [if_pos hads] at hmem
                refine IH ((List.take destOff d
                    ++ ((List.drop srcOff s).take n ++ (List.drop destOff d).drop n)) :: drest)
                  (destOff + n) srest 0 (r + 1 - n) ?_ (Or.inl rfl) st hmem
                right
                simp only [headLen]
                rw [hd2len]
                omega
              · have hads2 : s.length - srcOff ≠ n := by rw [← hsbl]; exact hads
                simp only [if_neg hads] at hmem
                refine IH ((List.take destOff d
                    ++ ((List.drop srcOff s).take n ++ (List.drop destOff d).drop n)) :: drest)
                  (destOff + n) (s :: srest) (srcOff + n) (r + 1 - n) ?_ ?_ st hmem
                · right
                  simp only [headLen]
                  rw [hd2len]
                  omega
                · right
                  simp only [headLen]
                  omega

theorem buffer_copy_seq_eq (dest src : List (List Nat)) (max_copy : Nat) :
    ∃ t dtail, buffer_copy_seq dest src max_copy = (t, dtail) ∧
      copyLoop (dest.length + src.length + max_copy) dest 0 src 0 max_copy
        = some (t, dtail) ∧
      t = min dest.flatten.length (min src.flatten.length max_copy) ∧
      dtail.map List.length = dest.map List.length ∧
      dtail.flatten = src.flatten.take t ++ dest.flatten.drop t := by
  obtain ⟨t, dtail, heq, ht, hmap, hflat⟩ :=
    copyLoop_spec (dest.length + src.length + max_copy) dest 0 src 0 max_copy
      (Nat.le_refl _) (Nat.zero_le _) (Nat.zero_le _)
  refine ⟨t, dtail, ?_, heq, ?_, hmap, ?_⟩
  · simp [buffer_copy_seq, heq]
  · simpa using ht
  · simpa using hflat

theorem buffer_size_eq_flatten (seq : List (List Nat)) :
    buffer_size seq = seq.flatten.length := by
  simp [buffer_size, List.length_flatten]

theorem buffer_copy_seq_count (dest src : List (List Nat)) (max_copy : Nat) :
    (buffer_copy_seq dest src max_copy).1
      = min (buffer_size dest) (min (buffer_size src) max_copy) := by
  obtain ⟨t, dtail, hout, _, ht, _, _⟩ := buffer_copy_seq_eq dest src max_copy
  rw [hout, buffer_size_eq_flatten, buffer_size_eq_flatten]
  exact ht

theorem buffer_copy_seq_flatten_eq (dest src : List (List Nat)) (max_copy : Nat) :
    (buffer_copy_seq dest src max_copy).2.flatten
      = src.flatten.take (buffer_copy_seq dest src max_copy).1
        ++ dest.flatten.drop (buffer_copy_seq dest src max_copy).1 := by
  obtain ⟨t, dtail, hout, _, _, _, hflat⟩ := buffer_copy_seq_eq dest src max_copy
  rw [hout]
  simpa using hflat

theorem buffer_copy_seq_map_length (dest src : List (List Nat)) (max_copy : Nat) :
    (buffer_copy_seq dest src max_copy).2.map List.length = dest.map List.length := by
  obtain ⟨t, dtail, hout, _, _, hmap, _⟩ := buffer_copy_seq_eq dest src max_copy
  rw [hout]
  exact hmap

theorem eq_of_map_length_eq_of_flatten_eq :
    ∀ {l1 l2 : List (List Nat)}, l1.map List.length = l2.map List.length →
      l1.flatten = l2.flatten → l1 = l2 := by
  intro l1
  induction l1 with
  | nil =>
    intro l2 h1 _
    cases l2 with
    | nil => rfl
    | cons b l2 => simp at h1
  | cons a l1 ih =>
    intro l2 h1 h2
    cases l2 with
    | nil => simp at h1
    | cons b l2 =>
      simp only [List.map_cons, List.cons.injEq] at h1
      simp only [List.flatten_cons] at h2
      obtain ⟨hab, hrest⟩ := List.append_inj h2 h1.1
      rw [hab, ih h1.2 hrest]

theorem flatten_filter_ne_nil (l : List (List Nat)) :
    (l.filter fun b => b ≠ []).flatten = l.flatten := by
  induction l with
  | nil => rfl
  | cons a l ih =>
    cases a with
    | nil => simpa using ih
    | cons x xs => simpa using ih

end NeoBuffer
namespace NeoBuffer

/-- C1: after `n = buffer_copy(dest, src, max_copy)` (sequence overload), the
first `n` logical bytes of the destination equal the first `n` logical bytes
the source held before the call, every destination byte at logical position
`>= n` is unmodified, per-buffer sizes are unchanged, and `max_copy = 0`
returns 0 and leaves the destination unchanged.  (The source is a read-only
input of the model: the operation writes only through the destination.) -/
theorem buffer_copy_seq_content_fidelity (dest src : List (List Nat)) (max_copy : Nat) :
    ((buffer_copy_seq dest src max_copy).2.flatten.take (buffer_copy_seq dest src max_copy).1
        = src.flatten.take (buffer_copy_seq dest src max_copy).1) ∧
    ((buffer_copy_seq dest src max_copy).2.flatten.drop (buffer_copy_seq dest src max_copy).1
        = dest.flatten.drop (buffer_copy_seq dest src max_copy).1) ∧
    ((buffer_copy_seq dest src max_copy).2.map List.length = dest.map List.length) ∧
    buffer_copy_seq dest src 0 = (0, dest) := by
  have hbound : (buffer_copy_seq dest src max_copy).1 ≤ src.flatten.length := by
    rw [buffer_copy_seq_count, buffer_size_eq_flatten, buffer_size_eq_flatten]
    omega
  have hTlen : (src.flatten.take (buffer_copy_seq dest src max_copy).1).length
      = (buffer_copy_seq dest src max_copy).1 := by
    simp only [List.length_take]
    omega
  refine ⟨?_, ?_, buffer_copy_seq_map_length dest src max_copy, ?_⟩
  · rw [buffer_copy_seq_flatten_eq, List.take_append_of_le_length (le_of_eq hTlen.symm),
      List.take_take]
    simp
  · rw [buffer_copy_seq_flatten_eq, List.drop_left' hTlen]
  · cases dest with
    | nil => simp [buffer_copy_seq, copyLoop]
    | cons d drest =>
      cases src with
      | nil => simp [buffer_copy_seq, copyLoop]
      | cons s srest => simp [buffer_copy_seq, copyLoop]

/-- C2: the single-view `buffer_copy(dest, src, max_copy)` returns exactly
`n = min(src.size(), dest.size(), max_copy)`, copies the first `n` bytes of the
source over the first `n` bytes of the destination byte-for-byte in order,
leaves the rest of the destination unchanged, never fails (it is a total
function), and degenerate inputs with `n = 0` return 0. -/
theorem buffer_copy_single_spec (dest src : List Nat) (max_copy : Nat) :
    (buffer_copy dest src max_copy).1 = min src.length (min dest.length max_copy) ∧
    (buffer_copy dest src max_copy).2
      = src.take (buffer_copy dest src max_copy).1
        ++ dest.drop (buffer_copy dest src max_copy).1 ∧
    (∀ i, i < (buffer_copy dest src max_copy).1 →
      (buffer_copy dest src max_copy).2[i]? = src[i]?) ∧
    (buffer_copy dest src max_copy).2.length = dest.length ∧
    buffer_copy dest src 0 = (0, dest) := by
  have h1 : (buffer_copy dest src max_copy).1 = min src.length (min dest.length max_copy) :=
    buffer_copy_fst dest src max_copy
  have hle_s : (buffer_copy dest src max_copy).1 ≤ src.length := by rw [h1]; omega
  have hle_d : (buffer_copy dest src max_copy).1 ≤ dest.length := by rw [h1]; omega
  have h2 : (buffer_copy dest src max_copy).2
      = src.take (buffer_copy dest src max_copy).1
        ++ dest.drop (buffer_copy dest src max_copy).1 := by
    have h0 : (buffer_copy dest src max_copy).2
        = copyBytes (buffer_copy dest src max_copy).1 src dest := rfl
    rw [h0]
    exact copyBytes_eq _ _ _ hle_s hle_d
  refine ⟨h1, h2, ?_, ?_, ?_⟩
  · intro i hi
    rw [h2, List.getElem?_append, if_pos (by simp [List.length_take]; omega),
      List.getElem?_take, if_pos hi]
  · rw [h2]
    simp [List.length_take, List.length_drop]
    omega
  · simp [buffer_copy, copyBytes]

/-- C2 witness: the single-view contract at a concrete input. -/
theorem buffer_copy_single_spec_witness :
    (buffer_copy [0, 0, 0] [7, 8] 5).1 = min [7, 8].length (min [0, 0, 0].length 5) ∧
    (buffer_copy [0, 0, 0] [7, 8] 5).2
      = [7, 8].take (buffer_copy [0, 0, 0] [7, 8] 5).1
        ++ [0, 0, 0].drop (buffer_copy [0, 0, 0] [7, 8] 5).1 ∧
    (∀ i, i < (buffer_copy [0, 0, 0] [7, 8] 5).1 →
      (buffer_copy [0, 0, 0] [7, 8] 5).2[i]? = [7, 8][i]?) ∧
    (buffer_copy [0, 0, 0] [7, 8] 5).2.length = [0, 0, 0].length ∧
    buffer_copy [0, 0, 0] [7, 8] 0 = (0, [0, 0, 0]) :=
  buffer_copy_single_spec [0, 0, 0] [7, 8] 5

/-- C3: the exhaustive overload `buffer_copy(dest, src)` copies exactly
`min(total_size(dest), total_size(src))` bytes; in particular it never
truncates when the destination capacity is at least the source size. -/
theorem buffer_copy_full_count (dest src : List (List Nat)) :
    (buffer_copy_full dest src).1 = min (buffer_size dest) (buffer_size src) ∧
    (buffer_size src ≤ buffer_size dest →
      (buffer_copy_full dest src).1 = buffer_size src) := by
  have h0 : buffer_copy_full dest src
      = buffer_copy_seq dest src
        (if buffer_size dest < buffer_size src then buffer_size dest
         else buffer_size src) := rfl
  have h : (buffer_copy_full dest src).1
      = min (buffer_size dest) (min (buffer_size src)
          (if buffer_size dest < buffer_size src then buffer_size dest
           else buffer_size src)) := by
    rw [h0, buffer_copy_seq_count]
  constructor
  · rw [h]
    split <;> omega
  · intro hle
    rw [h]
    split <;> omega

/-- C3 witness: the exhaustive overload at a concrete input. -/
theorem buffer_copy_full_count_witness :
    ((buffer_copy_full [[0, 0]] [[1], [2, 3]]).1
        = min (buffer_size [[0, 0]]) (buffer_size [[1], [2, 3]])) ∧
    (buffer_size [[1], [2, 3]] ≤ buffer_size [[0, 0]] →
      (buffer_copy_full [[0, 0]] [[1], [2, 3]]).1 = buffer_size [[1], [2, 3]]) :=
  buffer_copy_full_count [[0, 0]] [[1], [2, 3]]

/-- C4: the sequence overload never copies more than any of the three bounds:
its return value is at most `min(total_size(dest), total_size(src), max_copy)`. -/
theorem buffer_copy_seq_bound (dest src : List (List Nat)) (max_copy : Nat) :
    (buffer_copy_seq dest src max_copy).1
      ≤ min (buffer_size dest) (min (buffer_size src) max_copy) :=
  le_of_eq (buffer_copy_seq_count dest src max_copy)

/-- C5: the sequence copy loop terminates on every input: with any fuel at
least `dest.length + src.length + max_copy` the loop reaches its exit
condition (the result is `some`, never the fuel-exhaustion marker), and the
result does not depend on the fuel.  Zero-length buffers cannot stall the
loop, because a 0-byte step still advances the corresponding iterator. -/
theorem buffer_copy_seq_terminates (dest src : List (List Nat)) (max_copy fuel : Nat)
    (hfuel : dest.length + src.length + max_copy ≤ fuel) :
    copyLoop fuel dest 0 src 0 max_copy = some (buffer_copy_seq dest src max_copy) := by
  obtain ⟨t, dtail, heq, ht, hmap, hflat⟩ :=
    copyLoop_spec fuel dest 0 src 0 max_copy hfuel (Nat.zero_le _) (Nat.zero_le _)
  obtain ⟨t2, dtail2, hout, hloop2, ht2, hmap2, hflat2⟩ := buffer_copy_seq_eq dest src max_copy
  have htt : t = t2 := by omega
  have hdd : dtail = dtail2 := by
    apply eq_of_map_length_eq_of_flatten_eq (hmap.trans hmap2.symm)
    rw [hflat, hflat2, htt]
    simp
  rw [heq, hout, htt, hdd]

/-- C5 witness: termination at a concrete input and concrete surplus fuel. -/
theorem buffer_copy_seq_terminates_witness :
    [[1, 2]].length + [[3]].length + 5 ≤ 100 ∧
    copyLoop 100 [[1, 2]] 0 [[3]] 0 5 = some (buffer_copy_seq [[1, 2]] [[3]] 5) :=
  ⟨by decide, buffer_copy_seq_terminates [[1, 2]] [[3]] 5 100 (by decide)⟩

/-- C7: removing the zero-length buffers from the source or from the
destination sequence changes neither the returned count nor the logical
destination contents. -/
theorem buffer_copy_seq_zero_length_robust (dest src : List (List Nat)) (max_copy : Nat) :
    ((buffer_copy_seq dest (src.filter fun b => b ≠ []) max_copy).1
        = (buffer_copy_seq dest src max_copy).1 ∧
      (buffer_copy_seq dest (src.filter fun b => b ≠ []) max_copy).2.flatten
        = (buffer_copy_seq dest src max_copy).2.flatten) ∧
    ((buffer_copy_seq (dest.filter fun b => b ≠ []) src max_copy).1
        = (buffer_copy_seq dest src max_copy).1 ∧
      (buffer_copy_seq (dest.filter fun b => b ≠ []) src max_copy).2.flatten
        = (buffer_copy_seq dest src max_copy).2.flatten) := by
  have hsize_src : buffer_size (src.filter fun b => b ≠ []) = buffer_size src := by
    rw [buffer_size_eq_flatten, buffer_size_eq_flatten, flatten_filter_ne_nil]
  have hsize_dest : buffer_size (dest.filter fun b => b ≠ []) = buffer_size dest := by
    rw [buffer_size_eq_flatten, buffer_size_eq_flatten, flatten_filter_ne_nil]
  have hc1 : (buffer_copy_seq dest (src.filter fun b => b ≠ []) max_copy).1
      = (buffer_copy_seq dest src max_copy).1 := by
    rw [buffer_copy_seq_count, buffer_copy_seq_count, hsize_src]
  have hc2 : (buffer_copy_seq (dest.filter fun b => b ≠ []) src max_copy).1
      = (buffer_copy_seq dest src max_copy).1 := by
    rw [buffer_copy_seq_count, buffer_copy_seq_count, hsize_dest]
  refine ⟨⟨hc1, ?_⟩, hc2, ?_⟩
  · rw [buffer_copy_seq_flatten_eq, buffer_copy_seq_flatten_eq, hc1, flatten_filter_ne_nil]
  · rw [buffer_copy_seq_flatten_eq, buffer_copy_seq_flatten_eq, hc2, flatten_filter_ne_nil]

/-- C9: on single views wrapped as one-element sequences, the sequence engine
returns the same count and writes the same destination bytes as the
single-view overload. -/
theorem buffer_copy_seq_singleton (dest src : List Nat) (max_copy : Nat) :
    buffer_copy_seq [dest] [src] max_copy
      = ((buffer_copy dest src max_copy).1, [(buffer_copy dest src max_copy).2]) := by
  obtain ⟨t, dtail, hout, hloop, ht, hmap, hflat⟩ := buffer_copy_seq_eq [dest] [src] max_copy
  have hFd : ([dest] : List (List Nat)).flatten = dest := by simp
  have hFs : ([src] : List (List Nat)).flatten = src := by simp
  rw [hFd, hFs] at ht hflat
  have htn : t = (buffer_copy dest src max_copy).1 := by
    rw [ht, buffer_copy_fst]
    omega
  have hmap2 : dtail.map List.length = [dest.length] := by simpa using hmap
  obtain ⟨x, hx⟩ : ∃ x, dtail = [x] := by
    cases dtail with
    | nil => simp at hmap2
    | cons x rest =>
      cases rest with
      | nil => exact ⟨x, rfl⟩
      | cons y rest2 => simp at hmap2
  subst hx
  have hxval : x = src.take t ++ dest.drop t := by simpa using hflat
  have hb2 : (buffer_copy dest src max_copy).2 = src.take t ++ dest.drop t := by
    have h0 : (buffer_copy dest src max_copy).2
        = copyBytes (buffer_copy dest src max_copy).1 src dest := rfl
    rw [h0, ← htn]
    exact copyBytes_eq t _ _ (by rw [ht]; omega) (by rw [ht]; omega)
  rw [hout, htn, hxval, ← hb2]

/-- C8: on every iteration of the sequence copy loop, each intra-buffer offset
is at most the length of the buffer its iterator currently points to, so the
slicing `*iter + offset` always satisfies the `n <= size()` precondition of
`remove_prefix` (reached through `operator+`). -/
theorem copy_engine_offset_le (fuel : Nat) (dest src : List (List Nat)) (max_copy : Nat) :
    ∀ st ∈ copyStates fuel dest 0 src 0 max_copy,
      st.srcOff ≤ headLen st.src ∧ st.destOff ≤ headLen st.dest := by
  intro st hst
  have h := copyStates_inv fuel dest 0 src 0 max_copy (Or.inl rfl) (Or.inl rfl) st hst
  omega

/-- C8 witness: a concrete run reaching a state with a nonzero offset. -/
theorem copy_engine_offset_le_witness :
    (⟨[[8]], 0, [[4, 4, 4]], 2, 2⟩ : CopyState)
        ∈ copyStates 10 [[9, 9], [8]] 0 [[4, 4, 4]] 0 4 ∧
    ((⟨[[8]], 0, [[4, 4, 4]], 2, 2⟩ : CopyState).srcOff
        ≤ headLen (⟨[[8]], 0, [[4, 4, 4]], 2, 2⟩ : CopyState).src ∧
      (⟨[[8]], 0, [[4, 4, 4]], 2, 2⟩ : CopyState).destOff
        ≤ headLen (⟨[[8]], 0, [[4, 4, 4]], 2, 2⟩ : CopyState).dest) :=
  ⟨by decide, copy_engine_offset_le 10 [[9, 9], [8]] [[4, 4, 4]] 4 _ (by decide)⟩

/-- C6 (amended): at the top of every loop iteration each intra-buffer offset
is at most the current buffer length, and strictly below it whenever the
current buffer is non-empty; when the current buffer has length zero the
offset is zero (equality), so strictness as originally claimed fails exactly
on zero-length buffers. -/
theorem copy_engine_offset_strict (fuel : Nat) (dest src : List (List Nat)) (max_copy : Nat) :
    ∀ st ∈ copyStates fuel dest 0 src 0 max_copy,
      (st.destOff ≤ headLen st.dest ∧ (0 < headLen st.dest → st.destOff < headLen st.dest)) ∧
      (st.srcOff ≤ headLen st.src ∧ (0 < headLen st.src → st.srcOff < headLen st.src)) := by
  intro st hst
  have h := copyStates_inv fuel dest 0 src 0 max_copy (Or.inl rfl) (Or.inl rfl) st hst
  refine ⟨⟨?_, ?_⟩, ?_, ?_⟩ <;> omega

/-- C6 counterexample: with a zero-length first source buffer the loop runs an
iteration whose source offset (0) is not strictly below the current source
buffer length (0), refuting the claim as stated. -/
theorem copy_engine_offset_strict_cex :
    ∃ st ∈ copyStates (([[7]] : List (List Nat)).length
        + ([[], [5]] : List (List Nat)).length + 1) [[7]] 0 [[], [5]] 0 1,
      ¬ (st.srcOff < headLen st.src ∧ st.destOff < headLen st.dest) := by
  decide

/-- C6 witness: the amended invariant at a concrete run with a nonzero offset. -/
theorem copy_engine_offset_strict_witness :
    (⟨[[5, 2, 3]], 1, [[6, 7]], 0, 9⟩ : CopyState)
        ∈ copyStates 10 [[1, 2, 3]] 0 [[5], [6, 7]] 0 10 ∧
    (((⟨[[5, 2, 3]], 1, [[6, 7]], 0, 9⟩ : CopyState).destOff
          ≤ headLen (⟨[[5, 2, 3]], 1, [[6, 7]], 0, 9⟩ : CopyState).dest ∧
        (0 < headLen (⟨[[5, 2, 3]], 1, [[6, 7]], 0, 9⟩ : CopyState).dest →
          (⟨[[5, 2, 3]], 1, [[6, 7]], 0, 9⟩ : CopyState).destOff
            < headLen (⟨[[5, 2, 3]], 1, [[6, 7]], 0, 9⟩ : CopyState).dest)) ∧
      ((⟨[[5, 2, 3]], 1, [[6, 7]], 0, 9⟩ : CopyState).srcOff
          ≤ headLen (⟨[[5, 2, 3]], 1, [[6, 7]], 0, 9⟩ : CopyState).src ∧
        (0 < headLen (⟨[[5, 2, 3]], 1, [[6, 7]], 0, 9⟩ : CopyState).src →
          (⟨[[5, 2, 3]], 1, [[6, 7]], 0, 9⟩ : CopyState).srcOff
            < headLen (⟨[[5, 2, 3]], 1, [[6, 7]], 0, 9⟩ : CopyState).src))) :=
  ⟨by decide, copy_engine_offset_strict 10 [[1, 2, 3]] [[5], [6, 7]] 10 _ (by decide)⟩

/-- C10: `split(part)` with `part <= size()` returns two views that tile the
original exactly: the left half starts at the same data pointer with size
`part`, the right half starts `part` bytes further with the remaining size. -/
theorem buffer_base_split_spec (b : buffer_base) (part : Nat) (h : part ≤ b.size) :
    ( buffer_base.split b part).1.data = b.data ∧
    ( buffer_base.split b part).1.size = part ∧
    ( buffer_base.split b part).2.data = b.data + part ∧
    ( buffer_base.split b part).2.size = b.size - part := by
  refine ⟨rfl, rfl, ?_, ?_⟩ <;>
    · simp [ buffer_base.split, buffer_base.last, buffer_base.plus,
        buffer_base.first, buffer_base.remove_prefix]
      omega

/-- C10 witness: splitting a concrete view. -/
theorem buffer_base_split_spec_witness :
    4 ≤ (buffer_base.mk 100 10).size ∧
    (( buffer_base.split (buffer_base.mk 100 10) 4).1.data = (buffer_base.mk 100 10).data ∧
      ( buffer_base.split (buffer_base.mk 100 10) 4).1.size = 4 ∧
      ( buffer_base.split (buffer_base.mk 100 10) 4).2.data
        = (buffer_base.mk 100 10).data + 4 ∧
      ( buffer_base.split (buffer_base.mk 100 10) 4).2.size
        = (buffer_base.mk 100 10).size - 4) :=
  ⟨by decide, buffer_base_split_spec (buffer_base.mk 100 10) 4 (by decide)⟩

end NeoBuffer
